import Mathlib

/-!
Verification of the pitch-overlay canvas drawer (`src/drawer.canvaspitch.js`).

Shallow embedding conventions:
* JavaScript numbers are modelled as exact rationals `ℚ` (the claims under
  study are about control flow and exact formulas, not float rounding).
* The JavaScript object `this.pitches`, keyed by integer pixel column, is an
  insertion-ordered association list `List (ℤ × ℚ)`: setting an existing key
  replaces its value in place, a fresh key is appended at the end.
* A JavaScript runtime exception (e.g. reading `.time` of `undefined`) is
  modelled by `Option`: `none` means the computation throws.
* `Math.round x` is `⌊x + 1/2⌋` (round half towards +∞), JS semantics for
  finite arguments.
-/

namespace CanvasPitch

/-- A pitch data point: `{time, pitch}` as consumed by `calculatePitches`. -/
structure Sample where
  time : ℚ
  pitch : ℚ
deriving DecidableEq

/-- The `this.pitches` object: insertion-ordered map from pixel column to value. -/
abbrev PixelPitchMap := List (ℤ × ℚ)

/-- JS object property read `m[k]`: first (only) entry with key `k`. -/
def mapGet : PixelPitchMap → ℤ → Option ℚ
  | [], _ => none
  | (k1, v1) :: rest, k => if k1 = k then some v1 else mapGet rest k

/-- JS object property write `m[k] = v`: replace in place if the key exists,
otherwise append the new key at the end (JS insertion order). -/
def mapSet : PixelPitchMap → ℤ → ℚ → PixelPitchMap
  | [], k, v => [(k, v)]
  | (k1, v1) :: rest, k, v =>
    if k1 = k then (k, v) :: rest else (k1, v1) :: mapSet rest k v

/-- JS `Math.round` on a finite value: round half towards positive infinity. -/
def jround (q : ℚ) : ℤ := ⌊q + 1 / 2⌋

/-- `avg` from the source: `values.reduce((a,b) => a+b) / values.length`.
For nonempty lists this is exactly sum divided by length (the only way the
source calls it; on `[]` JS `reduce` would throw, which never happens because
every call site guards on a nonempty buffer). -/
def avg (values : List ℚ) : ℚ := values.sum / (values.length : ℚ)

/-- The configuration `calculatePitches` reads while aggregating: `this.width`,
`this.pitchTimeStart` and the already-resolved `this.pitchTimeEnd`. -/
structure AggConfig where
  width : ℕ
  pitchTimeStart : ℚ
  pitchTimeEnd : ℚ
deriving DecidableEq

/-- Membership in the display window: the source's
`dataPoint.time >= this.pitchTimeStart && dataPoint.time <= this.pitchTimeEnd`. -/
def inWindow (cfg : AggConfig) (d : Sample) : Prop :=
  cfg.pitchTimeStart ≤ d.time ∧ d.time ≤ cfg.pitchTimeEnd

instance (cfg : AggConfig) (d : Sample) : Decidable (inWindow cfg d) :=
  inferInstanceAs (Decidable (cfg.pitchTimeStart ≤ d.time ∧ d.time ≤ cfg.pitchTimeEnd))

/-- The pixel column of an in-window sample:
`Math.round(this.width * (dataPoint.time - this.pitchTimeStart) / duration)`
where `duration = this.pitchTimeEnd - this.pitchTimeStart`. -/
def colOf (cfg : AggConfig) (d : Sample) : ℤ :=
  jround ((cfg.width : ℚ) * (d.time - cfg.pitchTimeStart) /
    (cfg.pitchTimeEnd - cfg.pitchTimeStart))

/-- The mutable locals of the `calculatePitches` loop, plus `this.pitches`. -/
structure AggState where
  pitches : PixelPitchMap
  buffer : List ℚ
  prevPos : ℤ
  maxPitch : ℚ
  minPitch : ℚ
  maxSegmentPitch : ℚ
  minSegmentPitch : ℚ
deriving DecidableEq

/-- Initial loop state of `calculatePitches`: `this.pitches = {}`,
`pitchesForAverage = []`, `previousPosition = -1`, `maxPitch = 0`,
`minPitch = 99999999999`, `maxSegmentPitch = 0`, `minSegmentPitch = 99999999999`. -/
def aggInit : AggState :=
  { pitches := []
    buffer := []
    prevPos := -1
    maxPitch := 0
    minPitch := 99999999999
    maxSegmentPitch := 0
    minSegmentPitch := 99999999999 }

/-- One iteration of the `calculatePitches` loop body over `dataPoint = d`:
update global min/max unconditionally; if in window, push the pitch onto
`pitchesForAverage` FIRST, then on a column change flush the (now nonempty)
buffer: record its average at `previousPosition`, update segment min/max,
clear the buffer; finally `previousPosition = pitchPosition`. -/
def aggStep (cfg : AggConfig) (st : AggState) (d : Sample) : AggState :=
  let st1 : AggState :=
    { st with
      maxPitch := if d.pitch > st.maxPitch then d.pitch else st.maxPitch
      minPitch := if d.pitch < st.minPitch then d.pitch else st.minPitch }
  if cfg.pitchTimeStart ≤ d.time ∧ d.time ≤ cfg.pitchTimeEnd then
    let pitchPosition := colOf cfg d
    let buf := st1.buffer ++ [d.pitch]
    if pitchPosition ≠ st1.prevPos then
      if 0 < buf.length then
        let avgPitch := avg buf
        { st1 with
          pitches := mapSet st1.pitches st1.prevPos avgPitch
          buffer := []
          prevPos := pitchPosition
          maxSegmentPitch :=
            if avgPitch > st1.maxSegmentPitch then avgPitch else st1.maxSegmentPitch
          minSegmentPitch :=
            if avgPitch < st1.minSegmentPitch then avgPitch else st1.minSegmentPitch }
      else { st1 with buffer := buf, prevPos := pitchPosition }
    else { st1 with buffer := buf, prevPos := pitchPosition }
  else st1

/-- `normalizePitches(min, max)` from the source: every stored value `v`
becomes `(v - min) / (max - min)`, then is clamped above at 1 and below at 0
(two sequential `if` statements, as in the source). -/
def normalizePitches (mn mx : ℚ) (m : PixelPitchMap) : PixelPitchMap :=
  m.map (fun p =>
    let pitch := (p.2 - mn) / (mx - mn)
    let pitch1 := if pitch > 1 then 1 else pitch
    let pitch2 := if pitch1 < 0 then 0 else pitch1
    (p.1, pitch2))

/-- The params the pitch drawer reads, as supplied by the caller of
`initDrawer` (a JS object, so every field may be absent = `undefined`). -/
structure UserParams where
  pitchTimeStart : Option ℚ := none
  pitchTimeEnd : Option ℚ := none
  pitchNormalizeTo : Option String := none
  pitchMin : Option ℚ := none
  pitchMax : Option ℚ := none
deriving DecidableEq

/-- `this.params` after `initDrawer` merged the caller's params over
`defaultCanvasPitchParams`. `pitchTimeEnd` has no default, so it can remain
absent (`undefined`) after the merge. -/
structure MergedParams where
  pitchTimeStart : ℚ
  pitchTimeEnd : Option ℚ
  pitchNormalizeTo : String
  pitchMin : ℚ
  pitchMax : ℚ
deriving DecidableEq

/-- Modelled from the spec: `WaveSurfer.util.extend(defaults, params)` (host
library code, not under `src/`) copies the caller's own properties over the
defaults, so an absent property keeps its default. The defaults are
`defaultCanvasPitchParams` from the source: `pitchTimeStart: 0`,
`pitchNormalizeTo: 'values'`, `pitchMin: 70`, `pitchMax: 200`; there is no
default for `pitchTimeEnd`. -/
def mergeParams (p : UserParams) : MergedParams :=
  { pitchTimeStart := p.pitchTimeStart.getD 0
    pitchTimeEnd := p.pitchTimeEnd
    pitchNormalizeTo := p.pitchNormalizeTo.getD ("values")
    pitchMin := p.pitchMin.getD 70
    pitchMax := p.pitchMax.getD 200 }

/-- `calculatePitchTimeEnd` from the source: if `params.pitchTimeEnd` is
defined take it; otherwise read `pitchArray[pitchArray.length - 1].time`.
On an empty array the latter evaluates `undefined.time` and throws a
`TypeError`, modelled here as `none`. -/
def calculatePitchTimeEnd (params : MergedParams) (pitchArray : List Sample) :
    Option ℚ :=
  match params.pitchTimeEnd with
  | some e => some e
  | none => pitchArray.getLast?.map Sample.time

/-- `calculatePitches` from the source: reset `this.pitches`, resolve
`pitchTimeEnd` (which may throw, hence `Option`), run the aggregation loop,
then normalize in place using the range selected by
`this.params.pitchNormalizeTo` (`'whole'` → global extrema, `'values'` →
configured `pitchMin`/`pitchMax`, anything else → segment extrema). -/
def calculatePitches (params : MergedParams) (pitchArray : List Sample)
    (width : ℕ) : Option PixelPitchMap :=
  match calculatePitchTimeEnd params pitchArray with
  | none => none
  | some tEnd =>
    let cfg : AggConfig :=
      { width := width, pitchTimeStart := params.pitchTimeStart, pitchTimeEnd := tEnd }
    let st := pitchArray.foldl (aggStep cfg) aggInit
    some
      (if params.pitchNormalizeTo = "whole" then
        normalizePitches st.minPitch st.maxPitch st.pitches
      else if params.pitchNormalizeTo = "values" then
        normalizePitches params.pitchMin params.pitchMax st.pitches
      else
        normalizePitches st.minSegmentPitch st.maxSegmentPitch st.pitches)

/-! ### File loader (`loadPitchArrayFromFile`) and its parser

JavaScript strings are modelled as `List Char`. `String.prototype.split` with
a one-character separator (the source only splits on `"\n"` and `"\t"`) is
modelled by `splitOnChar`; `parseFloat` may yield `NaN`, so parsed numbers
live in `JNum`. -/

/-- Modelled from the spec: JavaScript `String.prototype.split(sep)` for a
one-character separator (a host builtin, not under `src/`): the list of
(possibly empty) chunks between occurrences of `sep`; splitting the empty
string yields `[[]]`, one empty chunk, exactly as in JS. -/
def splitOnChar (sep : Char) : List Char → List (List Char)
  | [] => [[]]
  | c :: rest =>
    if c = sep then [] :: splitOnChar sep rest
    else
      match splitOnChar sep rest with
      | [] => [[c]]
      | chunk :: more => (c :: chunk) :: more

/-- A JavaScript number as produced by `parseFloat`: either `NaN` or a value. -/
inductive JNum where
  | NaN : JNum
  | Num : ℚ → JNum
deriving DecidableEq

/-- A `{time, pitch}` object pushed by the file parser (fields may be `NaN`). -/
structure ParsedSample where
  time : JNum
  pitch : JNum
deriving DecidableEq

/-- The numeric value of a decimal digit character, `none` for non-digits. -/
def digitVal (c : Char) : Option ℕ :=
  if '0' ≤ c ∧ c ≤ '9' then some (c.toNat - '0'.toNat) else none

/-- Split a character list into its longest prefix of decimal digits (as
numeric values) and the remainder. -/
def takeDigits : List Char → List ℕ × List Char
  | [] => ([], [])
  | c :: rest =>
    match digitVal c with
    | some d => (d :: (takeDigits rest).1, (takeDigits rest).2)
    | none => ([], c :: rest)

/-- The natural number denoted by a digit-value list read left to right. -/
def digitsToNat (ds : List ℕ) : ℕ := ds.foldl (fun a d => 10 * a + d) 0

/-- Modelled from the spec: JavaScript `parseFloat` (a host builtin, not under
`src/`), restricted to plain decimal notation as produced by PRAAT files
("both fields parsed as floating-point"): skip leading whitespace, read an
optional sign, then digits with an optional fractional part; if no digit is
found the result is `NaN`. (Exponent notation is outside the inputs this
development evaluates and is not modelled.) -/
def jsParseFloat (s : List Char) : JNum :=
  let cs := s.dropWhile (fun c => c = ' ' ∨ c = '\t' ∨ c = '\n' ∨ c = '\r')
  let signAndRest : ℚ × List Char :=
    match cs with
    | '-' :: r => (-1, r)
    | '+' :: r => (1, r)
    | r => (1, r)
  let intPart := takeDigits signAndRest.2
  let fracPart : List ℕ :=
    match intPart.2 with
    | '.' :: r => (takeDigits r).1
    | _ => []
  if intPart.1.isEmpty ∧ fracPart.isEmpty then JNum.NaN
  else
    JNum.Num (signAndRest.1 *
      ((digitsToNat intPart.1 : ℚ) + (digitsToNat fracPart : ℚ) / (10 : ℚ) ^ fracPart.length))

/-- The parsing loop inside the `load` handler of `loadPitchArrayFromFile`:
split the response text on `"\n"`, split each line on `"\t"`, and push a
`{time, pitch}` object exactly when the line has exactly two parts. -/
def parsePitchText (text : List Char) : List ParsedSample :=
  (splitOnChar '\n' text).foldl
    (fun pitchArray pitchLine =>
      match splitOnChar '\t' pitchLine with
      | [t, p] => pitchArray ++ [{ time := jsParseFloat t, pitch := jsParseFloat p }]
      | _ => pitchArray)
    []

/-- The spec's reading of the parsing rule, stated independently of the
source's accumulator loop: a line qualifies as a sample exactly when it has
two tab-separated fields; all other lines are dropped. Used to check the
loop against the spec. -/
def specParsePitch (text : List Char) : List ParsedSample :=
  (splitOnChar '\n' text).filterMap
    (fun pitchLine =>
      match splitOnChar '\t' pitchLine with
      | [t, p] => some { time := jsParseFloat t, pitch := jsParseFloat p }
      | _ => none)

/-- What `fileAjax.on('load', ...)` sees: the XHR status and response text. -/
structure AjaxResponse where
  status : ℕ
  responseText : List Char

/-- The `load` handler of `loadPitchArrayFromFile`: only on `status == 200`
is the text parsed and `onSuccess(pitchArray)` invoked. `some a` means the
`onSuccess` callback ran with array `a`; `none` means it never ran. -/
def loadHandler (resp : AjaxResponse) : Option (List ParsedSample) :=
  if resp.status = 200 then some (parsePitchText resp.responseText) else none

/-- The event name fired by `initDrawer`'s `onPitchArrayLoaded` callback:
`my.fireEvent('pitch_array_loaded')`. -/
def loaderFiredEvent : List Char := "pitch_array_loaded".data

/-- The event name `drawPeaks` subscribes its deferred redraw to:
`my.on('pitch-array-loaded', ...)`. -/
def drawPeaksSubscribedEvent : List Char := "pitch-array-loaded".data

/-- The events emitted by the ajax load path of `initDrawer`: exactly one
`pitch_array_loaded` notification when the handler completes, nothing
otherwise (the handler body is guarded by `status == 200`). -/
def loaderEvents (resp : AjaxResponse) : List (List Char) :=
  match loadHandler resp with
  | some _ => [loaderFiredEvent]
  | none => []

/-! ### Deferred drawing (`drawPeaks` before the series is loaded)

A small observer model: the drawer state records whether the series has
loaded, the event names carrying a pending deferred `drawPeaks`, and how many
times the full draw pipeline has executed. -/

/-- Observer-pattern state of the drawer for the deferral logic. -/
structure DeferState where
  pitchArrayLoaded : Bool
  subscriptions : List (List Char)
  pipelineRuns : ℕ
deriving DecidableEq

/-- `drawPeaks`: if the series is loaded, run the full pipeline; otherwise
subscribe a deferred re-invocation to the `'pitch-array-loaded'` event. -/
def drawPeaksModel (st : DeferState) : DeferState :=
  if st.pitchArrayLoaded then { st with pipelineRuns := st.pipelineRuns + 1 }
  else { st with subscriptions := st.subscriptions ++ [drawPeaksSubscribedEvent] }

/-- `fireEvent(ev)` of the host observer: every handler subscribed to exactly
the name `ev` runs; each pending deferred handler re-invokes `drawPeaks`. -/
def fireEventModel (st : DeferState) (ev : List Char) : DeferState :=
  (st.subscriptions.filter (fun s => s = ev)).foldl
    (fun acc _ => drawPeaksModel acc) st

/-- `onPitchArrayLoaded` from `initDrawer`: store the array (not tracked
here), set `pitchArrayLoaded = true`, then `fireEvent('pitch_array_loaded')`. -/
def onPitchArrayLoadedModel (st : DeferState) : DeferState :=
  fireEventModel { st with pitchArrayLoaded := true } loaderFiredEvent

/-- Drawer state when `initDrawer` ran with a `pitchFileUrl` and the fetch has
not completed: nothing loaded, no subscriptions, no draws yet. -/
def awaitingSeries : DeferState :=
  { pitchArrayLoaded := false, subscriptions := [], pipelineRuns := 0 }

/-- The clamp the spec prescribes for normalized values: `clamp(x, 0, 1)`. -/
def clampUnit (x : ℚ) : ℚ := max 0 (min 1 x)

/-- The normalization range the spec's policy table prescribes, amended so
that an absent `pitchNormalizeTo` defaults to `'values'` (the value set by
`defaultCanvasPitchParams`): `'whole'` → global min/max pitch, `'values'` →
configured `pitchMin`/`pitchMax`, any other string → segment min/max of the
per-column averages. -/
def specNormalizationRange (policy : String)
    (globalMin globalMax segMin segMax pMin pMax : ℚ) : ℚ × ℚ :=
  if policy = "whole" then (globalMin, globalMax)
  else if policy = "values" then (pMin, pMax)
  else (segMin, segMax)

/-! ### Helper lemmas -/

theorem mapGet_mapSet_self (m : PixelPitchMap) (k : ℤ) (v : ℚ) :
    mapGet (mapSet m k v) k = some v := by
  induction m with
  | nil => simp [mapSet, mapGet]
  | cons hd tl ih =>
    by_cases h : hd.1 = k
    · simp [mapSet, mapGet, h]
    · simpa [mapSet, mapGet, h] using ih

theorem mapGet_mapSet_ne (m : PixelPitchMap) (k k1 : ℤ) (v : ℚ) (h : k1 ≠ k) :
    mapGet (mapSet m k v) k1 = mapGet m k1 := by
  induction m with
  | nil => simp [mapSet, mapGet, Ne.symm h]
  | cons hd tl ih =>
    obtain ⟨k2, v2⟩ := hd
    by_cases hk : k2 = k
    · subst hk
      simp [mapSet, mapGet, Ne.symm h]
    · by_cases hk1 : k2 = k1
      · simp [mapSet, mapGet, hk, hk1, h]
      · simp [mapSet, mapGet, hk, hk1, ih]

theorem avg_singleton (p : ℚ) : avg [p] = p := by
  simp [avg]

theorem aggStep_not_inWindow (cfg : AggConfig) (st : AggState) (d : Sample)
    (h : ¬ inWindow cfg d) :
    aggStep cfg st d =
      { st with
        maxPitch := if d.pitch > st.maxPitch then d.pitch else st.maxPitch
        minPitch := if d.pitch < st.minPitch then d.pitch else st.minPitch } := by
  have hw : ¬ (cfg.pitchTimeStart ≤ d.time ∧ d.time ≤ cfg.pitchTimeEnd) := h
  simp [aggStep, hw]

theorem aggStep_flush_eq (cfg : AggConfig) (st : AggState) (d : Sample)
    (hin : inWindow cfg d) (hne : colOf cfg d ≠ st.prevPos) :
    aggStep cfg st d =
      { pitches := mapSet st.pitches st.prevPos (avg (st.buffer ++ [d.pitch]))
        buffer := []
        prevPos := colOf cfg d
        maxPitch := if d.pitch > st.maxPitch then d.pitch else st.maxPitch
        minPitch := if d.pitch < st.minPitch then d.pitch else st.minPitch
        maxSegmentPitch :=
          if avg (st.buffer ++ [d.pitch]) > st.maxSegmentPitch then
            avg (st.buffer ++ [d.pitch])
          else st.maxSegmentPitch
        minSegmentPitch :=
          if avg (st.buffer ++ [d.pitch]) < st.minSegmentPitch then
            avg (st.buffer ++ [d.pitch])
          else st.minSegmentPitch } := by
  have hw : cfg.pitchTimeStart ≤ d.time ∧ d.time ≤ cfg.pitchTimeEnd := hin
  simp [aggStep, hw, hne]

theorem aggStep_same_col (cfg : AggConfig) (st : AggState) (d : Sample)
    (hin : inWindow cfg d) (heq : colOf cfg d = st.prevPos) :
    aggStep cfg st d =
      { st with
        buffer := st.buffer ++ [d.pitch]
        prevPos := colOf cfg d
        maxPitch := if d.pitch > st.maxPitch then d.pitch else st.maxPitch
        minPitch := if d.pitch < st.minPitch then d.pitch else st.minPitch } := by
  have hw : cfg.pitchTimeStart ≤ d.time ∧ d.time ≤ cfg.pitchTimeEnd := hin
  simp [aggStep, hw, heq]

theorem ite_gt_eq_max (m a : ℚ) : (if a > m then a else m) = max m a := by
  rcases le_total a m with h | h
  · rw [if_neg (not_lt.mpr h), max_eq_left h]
  · rcases eq_or_lt_of_le h with rfl | h2
    · simp
    · rw [if_pos h2, max_eq_right h]

theorem ite_lt_eq_min (m a : ℚ) : (if a < m then a else m) = min m a := by
  rcases le_total m a with h | h
  · rw [if_neg (not_lt.mpr h), min_eq_left h]
  · rcases eq_or_lt_of_le h with rfl | h2
    · simp
    · rw [if_pos h2, min_eq_right h]

/-! ### Claim theorems -/

/-- C1, as stated, is false: the source pushes the triggering sample's pitch
onto `pitchesForAverage` *before* the column-change check, so the flushed
mean includes the triggering sample and the new column's buffer starts empty.
Concrete run (width 1, window [0,1], samples (0,100), (1/4,110), (1,130)):
the sample (1,130) triggers the flush of column 0, and the recorded value is
`avg [110, 130] = 120`, not `avg [110] = 110` as the claim would have it, and
the buffer after the flush is `[]`, not `[130]`. -/
theorem trigger_sample_in_flushed_mean_cex :
    mapGet (([⟨0,100⟩, ⟨1/4,110⟩, ⟨1,130⟩] : List Sample).foldl
        (aggStep ⟨1,0,1⟩) aggInit).pitches 0 = some 120 ∧
    (([⟨0,100⟩, ⟨1/4,110⟩, ⟨1,130⟩] : List Sample).foldl
        (aggStep ⟨1,0,1⟩) aggInit).buffer = [] ∧
    (120 : ℚ) ≠ avg [110] ∧ ([] : List ℚ) ≠ [(130 : ℚ)] := by
  refine ⟨?_, ?_, by norm_num [avg], by simp⟩ <;>
    norm_num [aggStep, aggInit, colOf, jround, avg, mapSet, mapGet]

/-- C1 amended: whenever an in-window sample maps to a different pixel column
than the previous in-window sample, the triggering sample's pitch is first
appended to the buffer, and then the whole buffer — including the triggering
sample — is flushed: its arithmetic mean is recorded in the PixelPitchMap at
the previous column, segment min/max are updated with that mean, and the
buffer is left empty (the new column's buffer does not start with the
triggering sample). -/
theorem aggStep_column_change_flush (cfg : AggConfig) (st : AggState)
    (d : Sample) (hin : inWindow cfg d) (hne : colOf cfg d ≠ st.prevPos) :
    (aggStep cfg st d).pitches
        = mapSet st.pitches st.prevPos (avg (st.buffer ++ [d.pitch])) ∧
    mapGet (aggStep cfg st d).pitches st.prevPos
        = some (avg (st.buffer ++ [d.pitch])) ∧
    (aggStep cfg st d).buffer = [] ∧
    (aggStep cfg st d).prevPos = colOf cfg d ∧
    (aggStep cfg st d).maxSegmentPitch
        = max st.maxSegmentPitch (avg (st.buffer ++ [d.pitch])) ∧
    (aggStep cfg st d).minSegmentPitch
        = min st.minSegmentPitch (avg (st.buffer ++ [d.pitch])) := by
  rw [aggStep_flush_eq cfg st d hin hne]
  refine ⟨rfl, mapGet_mapSet_self _ _ _, rfl, rfl, ?_, ?_⟩
  · exact ite_gt_eq_max _ _
  · exact ite_lt_eq_min _ _

/-- Witness for `aggStep_column_change_flush` at a concrete flush: state with
buffer [110] at column 0, triggering sample (1,130) mapping to column 1. -/
theorem aggStep_column_change_flush_witness :
    (aggStep ⟨1,0,1⟩ ⟨[(-1,100)], [110], 0, 110, 100, 100, 100⟩ ⟨1,130⟩).pitches
        = mapSet [(-1,100)] 0 (avg ([110] ++ [(130:ℚ)])) ∧
    mapGet (aggStep ⟨1,0,1⟩ ⟨[(-1,100)], [110], 0, 110, 100, 100, 100⟩ ⟨1,130⟩).pitches 0
        = some (avg ([110] ++ [(130:ℚ)])) ∧
    (aggStep ⟨1,0,1⟩ ⟨[(-1,100)], [110], 0, 110, 100, 100, 100⟩ ⟨1,130⟩).buffer = [] ∧
    (aggStep ⟨1,0,1⟩ ⟨[(-1,100)], [110], 0, 110, 100, 100, 100⟩ ⟨1,130⟩).prevPos
        = colOf ⟨1,0,1⟩ ⟨1,130⟩ ∧
    (aggStep ⟨1,0,1⟩ ⟨[(-1,100)], [110], 0, 110, 100, 100, 100⟩ ⟨1,130⟩).maxSegmentPitch
        = max 100 (avg ([110] ++ [(130:ℚ)])) ∧
    (aggStep ⟨1,0,1⟩ ⟨[(-1,100)], [110], 0, 110, 100, 100, 100⟩ ⟨1,130⟩).minSegmentPitch
        = min 100 (avg ([110] ++ [(130:ℚ)])) :=
  aggStep_column_change_flush ⟨1,0,1⟩ ⟨[(-1,100)], [110], 0, 110, 100, 100, 100⟩
    ⟨1,130⟩ (by constructor <;> norm_num) (by norm_num [colOf, jround])

theorem foldl_same_col (cfg : AggConfig) (c : ℤ) (t : List Sample) :
    ∀ st : AggState, st.prevPos = c →
      (∀ d ∈ t, inWindow cfg d ∧ colOf cfg d = c) →
      (t.foldl (aggStep cfg) st).pitches = st.pitches ∧
      (t.foldl (aggStep cfg) st).prevPos = st.prevPos ∧
      (t.foldl (aggStep cfg) st).buffer = st.buffer ++ t.map Sample.pitch := by
  induction t with
  | nil => intro st _ _; simp
  | cons d rest ih =>
    intro st hst h
    obtain ⟨hin, hcol⟩ := h d (List.mem_cons_self d rest)
    have hcol2 : colOf cfg d = st.prevPos := by rw [hcol, hst]
    rw [List.foldl_cons, aggStep_same_col cfg st d hin hcol2]
    obtain ⟨h1, h2, h3⟩ :=
      ih { st with
            buffer := st.buffer ++ [d.pitch]
            prevPos := colOf cfg d
            maxPitch := if d.pitch > st.maxPitch then d.pitch else st.maxPitch
            minPitch := if d.pitch < st.minPitch then d.pitch else st.minPitch }
        hcol (fun x hx => h x (List.mem_cons_of_mem d hx))
    refine ⟨h1, h2.trans hcol2, h3.trans ?_⟩
    simp

/-- C2: the aggregation loop of `calculatePitches` never flushes the final
accumulated run. Appending to the series any trailing run of in-window
samples that all map to the column the loop is currently buffering leaves the
PixelPitchMap exactly as it was without them: their pitches pile up in the
buffer and are dropped when the loop ends. -/
theorem trailing_run_never_flushed (cfg : AggConfig) (s t : List Sample)
    (h : ∀ d ∈ t, inWindow cfg d ∧
        colOf cfg d = (s.foldl (aggStep cfg) aggInit).prevPos) :
    ((s ++ t).foldl (aggStep cfg) aggInit).pitches
        = (s.foldl (aggStep cfg) aggInit).pitches ∧
    ((s ++ t).foldl (aggStep cfg) aggInit).buffer
        = (s.foldl (aggStep cfg) aggInit).buffer ++ t.map Sample.pitch := by
  rw [List.foldl_append]
  obtain ⟨h1, _, h3⟩ :=
    foldl_same_col cfg ((s.foldl (aggStep cfg) aggInit).prevPos) t _ rfl h
  exact ⟨h1, h3⟩

/-- Witness for `trailing_run_never_flushed`: width 2, window [0,1], series
(0,100) followed by the trailing run [(1/5,120)] on column 0; the map is the
one produced by (0,100) alone and 120 is left in the buffer. -/
theorem trailing_run_never_flushed_witness :
    (([⟨0,100⟩] ++ [⟨1/5,120⟩] : List Sample).foldl (aggStep ⟨2,0,1⟩) aggInit).pitches
        = (([⟨0,100⟩] : List Sample).foldl (aggStep ⟨2,0,1⟩) aggInit).pitches ∧
    (([⟨0,100⟩] ++ [⟨1/5,120⟩] : List Sample).foldl (aggStep ⟨2,0,1⟩) aggInit).buffer
        = (([⟨0,100⟩] : List Sample).foldl (aggStep ⟨2,0,1⟩) aggInit).buffer
            ++ ([⟨1/5,120⟩] : List Sample).map Sample.pitch :=
  trailing_run_never_flushed ⟨2,0,1⟩ [⟨0,100⟩] [⟨1/5,120⟩] (by
    intro d hd
    simp only [List.mem_singleton] at hd
    subst hd
    constructor
    · exact ⟨by norm_num, by norm_num⟩
    · norm_num [aggStep, aggInit, colOf, jround, inWindow])

theorem foldl_out_of_window (cfg : AggConfig) (l : List Sample) :
    ∀ st : AggState, (∀ x ∈ l, ¬ inWindow cfg x) →
      (l.foldl (aggStep cfg) st).pitches = st.pitches ∧
      (l.foldl (aggStep cfg) st).buffer = st.buffer ∧
      (l.foldl (aggStep cfg) st).prevPos = st.prevPos := by
  induction l with
  | nil => intro st _; exact ⟨rfl, rfl, rfl⟩
  | cons d rest ih =>
    intro st h
    rw [List.foldl_cons, aggStep_not_inWindow cfg st d (h d (List.mem_cons_self d rest))]
    exact ih _ (fun x hx => h x (List.mem_cons_of_mem d hx))

theorem colOf_nonneg (cfg : AggConfig) (d : Sample)
    (hdur : cfg.pitchTimeStart < cfg.pitchTimeEnd)
    (ht : cfg.pitchTimeStart ≤ d.time) : 0 ≤ colOf cfg d := by
  unfold colOf jround
  have hq : (0:ℚ) ≤ (cfg.width : ℚ) * (d.time - cfg.pitchTimeStart) /
      (cfg.pitchTimeEnd - cfg.pitchTimeStart) :=
    div_nonneg (mul_nonneg (Nat.cast_nonneg _) (by linarith)) (by linarith)
  exact Int.floor_nonneg.mpr (by linarith)

theorem foldl_preserves_neg_key (cfg : AggConfig)
    (hdur : cfg.pitchTimeStart < cfg.pitchTimeEnd) (p : ℚ) (l : List Sample) :
    ∀ st : AggState, 0 ≤ st.prevPos → mapGet st.pitches (-1) = some p →
      mapGet ((l.foldl (aggStep cfg) st).pitches) (-1) = some p ∧
      0 ≤ (l.foldl (aggStep cfg) st).prevPos := by
  induction l with
  | nil => intro st h1 h2; exact ⟨h2, h1⟩
  | cons d rest ih =>
    intro st h1 h2
    rw [List.foldl_cons]
    by_cases hin : inWindow cfg d
    · have hcn : 0 ≤ colOf cfg d := colOf_nonneg cfg d hdur hin.1
      by_cases hcol : colOf cfg d = st.prevPos
      · rw [aggStep_same_col cfg st d hin hcol]
        exact ih _ hcn h2
      · rw [aggStep_flush_eq cfg st d hin hcol]
        refine ih _ hcn ?_
        show mapGet (mapSet st.pitches st.prevPos (avg (st.buffer ++ [d.pitch]))) (-1)
            = some p
        rw [mapGet_mapSet_ne _ _ _ _ (by omega)]
        exact h2
    · rw [aggStep_not_inWindow cfg st d hin]
      exact ih _ h1 h2

/-- C9: in every aggregation run over a positive-length window whose series
has at least one in-window sample, the first in-window sample is flushed
alone immediately (its column, being non-negative, differs from the initial
`previousPosition = -1`), so the aggregated PixelPitchMap permanently holds
an entry at key `-1` — a column outside the drawable range — whose value is
that first sample's raw pitch. -/
theorem first_flush_records_at_minus_one (cfg : AggConfig) (pre : List Sample)
    (w : Sample) (rest : List Sample)
    (hdur : cfg.pitchTimeStart < cfg.pitchTimeEnd)
    (hpre : ∀ x ∈ pre, ¬ inWindow cfg x)
    (hw : inWindow cfg w) :
    mapGet (((pre ++ w :: rest).foldl (aggStep cfg) aggInit).pitches) (-1)
        = some w.pitch ∧
    0 ≤ colOf cfg w ∧ colOf cfg w ≠ -1 := by
  have hcn : 0 ≤ colOf cfg w := colOf_nonneg cfg w hdur hw.1
  have hkey : colOf cfg w ≠ (-1 : ℤ) := by omega
  rw [List.foldl_append, List.foldl_cons]
  obtain ⟨hp, hb, hv⟩ := foldl_out_of_window cfg pre aggInit hpre
  have hne : colOf cfg w ≠ (pre.foldl (aggStep cfg) aggInit).prevPos := by
    rw [hv]; exact hkey
  rw [aggStep_flush_eq cfg _ w hw hne]
  refine ⟨(foldl_preserves_neg_key cfg hdur w.pitch rest _ hcn ?_).1, hcn, hkey⟩
  show mapGet (mapSet (pre.foldl (aggStep cfg) aggInit).pitches
      (pre.foldl (aggStep cfg) aggInit).prevPos
      (avg ((pre.foldl (aggStep cfg) aggInit).buffer ++ [w.pitch]))) (-1)
    = some w.pitch
  rw [hp, hb, hv]
  show mapGet (mapSet [] (-1) (avg ([] ++ [w.pitch]))) (-1) = some w.pitch
  rw [List.nil_append, avg_singleton, mapGet_mapSet_self]

/-- Witness for `first_flush_records_at_minus_one`: window [0,1] at width 2,
an out-of-window sample (-1,50), first in-window sample (0,100), and a later
sample (1,140): the final map holds 100 at key -1. -/
theorem first_flush_records_at_minus_one_witness :
    mapGet ((([⟨-1,50⟩] ++ ⟨0,100⟩ :: [⟨1,140⟩] : List Sample).foldl
        (aggStep ⟨2,0,1⟩) aggInit).pitches) (-1) = some 100 ∧
    0 ≤ colOf ⟨2,0,1⟩ ⟨0,100⟩ ∧ colOf ⟨2,0,1⟩ ⟨0,100⟩ ≠ -1 :=
  first_flush_records_at_minus_one ⟨2,0,1⟩ [⟨-1,50⟩] ⟨0,100⟩ [⟨1,140⟩]
    (by norm_num)
    (by
      intro x hx
      simp only [List.mem_singleton] at hx
      subst hx
      intro hcontra
      have h1 := hcontra.1
      norm_num at h1)
    ⟨by norm_num, by norm_num⟩

/-- C4, as stated, is false: with an empty `pitchArray` and `pitchTimeEnd`
left unspecified, `calculatePitchTimeEnd` evaluates
`pitchArray[pitchArray.length - 1].time` on the empty array, which is
`undefined.time` — a thrown TypeError (`none` in this model) — so the
aggregation does not complete and in particular does not produce an empty
PixelPitchMap. -/
theorem empty_pitchArray_throws_cex :
    calculatePitches (mergeParams {}) [] 100 = none ∧
    calculatePitches (mergeParams {}) [] 100 ≠ some [] := by
  constructor
  · simp [calculatePitches, calculatePitchTimeEnd, mergeParams]
  · simp [calculatePitches, calculatePitchTimeEnd, mergeParams]

/-- C4 amended: with an empty `pitchArray`, aggregation yields the empty
PixelPitchMap without an exception exactly when `pitchTimeEnd` is specified;
when `pitchTimeEnd` is unspecified, `calculatePitchTimeEnd` reads the last
element of the empty array and the aggregation throws. -/
theorem empty_pitchArray_amended (e : ℚ) (w : ℕ) (u : UserParams) :
    calculatePitches (mergeParams { u with pitchTimeEnd := some e }) [] w
        = some [] ∧
    calculatePitches (mergeParams { u with pitchTimeEnd := none }) [] w
        = none := by
  constructor
  · simp [calculatePitches, calculatePitchTimeEnd, mergeParams, normalizePitches,
      aggInit]
  · simp [calculatePitches, calculatePitchTimeEnd, mergeParams]

/-- C3 is a code bug: `drawPeaks` defers the draw by subscribing to the event
named `'pitch-array-loaded'`, but the loader callback installed by
`initDrawer` fires `'pitch_array_loaded'`. The names differ, so after a draw
request arrives while loading and the loader then completes, the deferred
draw pipeline has run zero times — whereas firing the event the deferred
draw is actually subscribed to would run it once. -/
theorem deferred_draw_event_mismatch :
    (onPitchArrayLoadedModel (drawPeaksModel awaitingSeries)).pipelineRuns = 0 ∧
    drawPeaksSubscribedEvent ≠ loaderFiredEvent ∧
    (fireEventModel { drawPeaksModel awaitingSeries with pitchArrayLoaded := true }
        drawPeaksSubscribedEvent).pipelineRuns = 1 := by
  exact ⟨by decide, by decide, by decide⟩

/-- C5, as stated, is false for the default: when `pitchNormalizeTo` is not
supplied, `initDrawer`'s merge with `defaultCanvasPitchParams` yields
`'values'`, so the configured 70–200 range is used, not the segment min/max.
Concrete run (window [0,1], width 2, samples (0,100), (1/2,120), (1,140);
segment extrema 100/140): column 0 is normalized to (120-70)/130 = 5/13,
while segment normalization would give (120-100)/40 = 1/2. -/
theorem default_policy_not_segment_cex :
    calculatePitches (mergeParams { pitchTimeEnd := some 1 })
        [⟨0,100⟩, ⟨1/2,120⟩, ⟨1,140⟩] 2
      = some (normalizePitches 70 200 [(-1,100),(0,120),(1,140)]) ∧
    calculatePitches (mergeParams { pitchTimeEnd := some 1 })
        [⟨0,100⟩, ⟨1/2,120⟩, ⟨1,140⟩] 2
      ≠ some (normalizePitches 100 140 [(-1,100),(0,120),(1,140)]) ∧
    mapGet (normalizePitches 70 200 [(-1,100),(0,120),(1,140)]) 0 = some (5/13) ∧
    mapGet (normalizePitches 100 140 [(-1,100),(0,120),(1,140)]) 0 = some (1/2) := by
  refine ⟨?_, ?_, ?_, ?_⟩ <;>
    norm_num [calculatePitches, calculatePitchTimeEnd, mergeParams, aggStep,
      aggInit, colOf, jround, avg, mapSet, mapGet, normalizePitches] <;>
    decide

/-- C5 amended: `calculatePitches` normalizes with the range selected by the
policy string `'whole'` → global min/max pitch over all samples, `'values'` →
configured `pitchMin`/`pitchMax`, any other supplied value (including
`'segment'`) → min/max of the per-column averages; an absent
`pitchNormalizeTo` defaults to `'values'` (per `defaultCanvasPitchParams`),
not to the segment policy. -/
theorem normalize_policy_selection (u : UserParams) (l : List Sample) (w : ℕ) :
    calculatePitches (mergeParams u) l w =
      (calculatePitchTimeEnd (mergeParams u) l).map (fun tEnd =>
        let st := l.foldl
          (aggStep ⟨w, (mergeParams u).pitchTimeStart, tEnd⟩) aggInit
        let r := specNormalizationRange (u.pitchNormalizeTo.getD ("values"))
          st.minPitch st.maxPitch st.minSegmentPitch st.maxSegmentPitch
          (mergeParams u).pitchMin (mergeParams u).pitchMax
        normalizePitches r.1 r.2 st.pitches) := by
  cases h : calculatePitchTimeEnd (mergeParams u) l with
  | none => simp [calculatePitches, h]
  | some tEnd =>
    have hm : (mergeParams u).pitchNormalizeTo = u.pitchNormalizeTo.getD ("values") :=
      rfl
    by_cases h1 : u.pitchNormalizeTo.getD ("values") = "whole"
    · simp [calculatePitches, h, specNormalizationRange, hm, h1]
    · by_cases h2 : u.pitchNormalizeTo.getD ("values") = "values"
      · simp [calculatePitches, h, specNormalizationRange, hm, h1, h2]
      · simp [calculatePitches, h, specNormalizationRange, hm, h1, h2]

theorem seq_clamp_eq_clampUnit (x : ℚ) :
    (if (if x > 1 then (1:ℚ) else x) < 0 then 0 else if x > 1 then (1:ℚ) else x)
      = clampUnit x := by
  unfold clampUnit
  by_cases h1 : x > 1
  · rw [if_pos h1, if_neg (by norm_num), min_eq_left (le_of_lt h1),
      max_eq_right (by norm_num)]
  · rw [if_neg h1, min_eq_right (not_lt.mp h1)]
    by_cases h0 : x < 0
    · rw [if_pos h0, max_eq_left (le_of_lt h0)]
    · rw [if_neg h0, max_eq_right (not_lt.mp h0)]

theorem clampUnit_bounds (x : ℚ) : 0 ≤ clampUnit x ∧ clampUnit x ≤ 1 :=
  ⟨le_max_left 0 _, max_le (by norm_num) (min_le_left 1 x)⟩

theorem mapGet_normalize_shape (mn mx : ℚ) (m : PixelPitchMap) (k : ℤ) (v : ℚ)
    (h : mapGet (normalizePitches mn mx m) k = some v) :
    ∃ x : ℚ, v = clampUnit ((x - mn) / (mx - mn)) := by
  induction m with
  | nil => simp [normalizePitches, mapGet] at h
  | cons hd tl ih =>
    rw [normalizePitches, List.map_cons] at h
    rw [mapGet] at h
    by_cases hk : hd.1 = k
    · rw [if_pos hk] at h
      refine ⟨hd.2, ?_⟩
      have hv := (Option.some.injEq _ _).mp h
      rw [← hv, ← seq_clamp_eq_clampUnit]
    · rw [if_neg hk] at h
      exact ih h

/-- C6: `normalizePitches` maps every stored value `v` to
`clamp((v - min) / (max - min), 0, 1)`, and (in particular, for a well-formed
range `min < max`) every value readable from the normalized map lies in
[0, 1]. -/
theorem normalizePitches_clamp_range (mn mx : ℚ) (m : PixelPitchMap)
    (k : ℤ) (v : ℚ) :
    normalizePitches mn mx m
        = m.map (fun p => (p.1, clampUnit ((p.2 - mn) / (mx - mn)))) ∧
    (mn < mx → mapGet (normalizePitches mn mx m) k = some v →
        0 ≤ v ∧ v ≤ 1) := by
  constructor
  · unfold normalizePitches
    simp only [seq_clamp_eq_clampUnit]
  · intro _ hget
    obtain ⟨x, hx⟩ := mapGet_normalize_shape mn mx m k v hget
    rw [hx]
    exact clampUnit_bounds _

/-- Witness for `normalizePitches_clamp_range` at min 0, max 1 and the map
[(2, 3/2)]: the stored 3/2 normalizes to the clamped value 1 ∈ [0,1]. -/
theorem normalizePitches_clamp_range_witness :
    normalizePitches 0 1 [(2, 3/2)]
        = ([(2, 3/2)] : PixelPitchMap).map
            (fun p => (p.1, clampUnit ((p.2 - 0) / (1 - 0)))) ∧
    (0 ≤ (1:ℚ) ∧ (1:ℚ) ≤ 1) :=
  ⟨(normalizePitches_clamp_range 0 1 [(2, 3/2)] 2 1).1,
   (normalizePitches_clamp_range 0 1 [(2, 3/2)] 2 1).2 (by norm_num)
     (by norm_num [normalizePitches, mapGet])⟩

theorem parse_loop_eq (lines : List (List Char)) :
    ∀ acc : List ParsedSample,
      lines.foldl (fun pitchArray pitchLine =>
        match splitOnChar '\t' pitchLine with
        | [t, p] => pitchArray ++
            [{ time := jsParseFloat t, pitch := jsParseFloat p }]
        | _ => pitchArray) acc
      = acc ++ lines.filterMap (fun pitchLine =>
          match splitOnChar '\t' pitchLine with
          | [t, p] => some { time := jsParseFloat t, pitch := jsParseFloat p }
          | _ => none) := by
  induction lines with
  | nil => intro acc; simp
  | cons line rest ih =>
    intro acc
    rw [List.foldl_cons, List.filterMap_cons]
    cases h : splitOnChar '\t' line with
    | nil => simp only [h]; rw [ih]
    | cons a tl =>
      cases tl with
      | nil => simp only [h]; rw [ih]
      | cons b tl2 =>
        cases tl2 with
        | nil => simp only [h]; rw [ih]; simp
        | cons c tl3 => simp only [h]; rw [ih]

/-- C7: the parsing loop keeps a line as a sample exactly when splitting it
on a tab yields exactly two fields (it equals the filterMap the spec
describes), and on the resource with lines "1.2\t100.0", "garbage" and
"2.4\t110.0" it yields exactly the samples (1.2, 100.0) and (2.4, 110.0). -/
theorem parser_keeps_exactly_two_field_lines :
    (∀ text : List Char, parsePitchText text = specParsePitch text) ∧
    parsePitchText ("1.2\t100.0\ngarbage\n2.4\t110.0").data
      = [⟨JNum.Num (6/5), JNum.Num 100⟩, ⟨JNum.Num (12/5), JNum.Num 110⟩] := by
  constructor
  · intro text
    unfold parsePitchText specParsePitch
    rw [parse_loop_eq]
    simp
  · simp +decide [parsePitchText, jsParseFloat, takeDigits, digitVal,
      digitsToNat, splitOnChar]
    norm_num

/-- C8: when the fetch completes with a status other than 200, the `load`
handler body is skipped entirely: `onSuccess` is never invoked and no
series-ready notification is fired — loading silently never completes. -/
theorem non_success_status_silent (resp : AjaxResponse)
    (h : resp.status ≠ 200) :
    loadHandler resp = none ∧ loaderEvents resp = [] := by
  have h1 : loadHandler resp = none := by simp [loadHandler, h]
  exact ⟨h1, by simp [loaderEvents, h1]⟩

/-- Witness for `non_success_status_silent` at a 404 response carrying
well-formed text: the callback still never runs and no event is fired. -/
theorem non_success_status_silent_witness :
    loadHandler ⟨404, ("1.2\t100.0").data⟩ = none ∧
    loaderEvents ⟨404, ("1.2\t100.0").data⟩ = [] :=
  non_success_status_silent ⟨404, ("1.2\t100.0").data⟩ (by decide)

theorem length_filterMap_eq {α β : Type} (g : α → Option β) (l : List α) :
    (l.filterMap g).length = (l.filter (fun a => (g a).isSome)).length := by
  induction l with
  | nil => rfl
  | cons a rest ih =>
    cases h : g a <;>
      simp [List.filterMap_cons, List.filter_cons, h, ih]

/-- C10: a line with exactly two tab-separated fields is always kept, even
when a field is not numeric — `parseFloat` of such text is `NaN`, so the line
"a\tb" produces the sample (NaN, NaN) — and the two-field check is the only
filter: the number of samples equals the number of lines with exactly two
tab-separated fields, for every input text. -/
theorem two_field_check_only_filter :
    parsePitchText ("a\tb").data = [⟨JNum.NaN, JNum.NaN⟩] ∧
    jsParseFloat ("a").data = JNum.NaN ∧
    jsParseFloat ("b").data = JNum.NaN ∧
    (∀ text : List Char, (parsePitchText text).length
        = ((splitOnChar '\n' text).filter
            (fun pitchLine => (splitOnChar '\t' pitchLine).length == 2)).length) := by
  refine ⟨by decide, by decide, by decide, ?_⟩
  intro text
  unfold parsePitchText
  rw [parse_loop_eq]
  rw [List.nil_append, length_filterMap_eq]
  congr 1
  apply List.filter_congr
  intro line _
  cases h : splitOnChar '\t' line with
  | nil => simp [h]
  | cons a tl =>
    cases tl with
    | nil => simp [h]
    | cons b tl2 =>
      cases tl2 with
      | nil => simp [h]
      | cons c tl3 => simp [h]

end CanvasPitch
